import Mathlib

/-!
Verification of the tactical core of the `civng` hex-strategy game:
hex cube/offset coordinates (`src/hexpos.rs`), the depth-first path
enumerator `PathWalker`, the reachability resolver of `src/map.rs`, and
the combat resolver of `src/combat.rs`.

Embedding conventions:
* Rust `i32` coordinates are modelled as `ℤ` (the game never comes close
  to 32-bit overflow on the tiny maps involved; all claims are about
  small values).  Rust truncated division `/` and remainder `%` on `i32`
  are modelled by `Int.tdiv` / `Int.tmod`.
* Rust `u8` quantities (hit points, damages, movement points, costs)
  are modelled as `ℕ`.  Where the source subtracts (`hp - dmg`) it
  either checks the order first or the relevant theorem carries the
  corresponding hypothesis, so `ℕ` truncated subtraction agrees with
  the source.
* `f32` arithmetic in `combat.rs` is modelled as exact arithmetic on
  `ℚ`; `x.floor() as u8` becomes `(Rat.floor x).toNat`.  The concrete
  scenarios proved below keep every intermediate value either exactly
  representable in `f32` or far from the relevant rounding boundary.
* The random draws of `roll_dice` are isolated as explicit parameters
  constrained to lie in the computed inclusive range, exactly the
  guarantee `rand::distributions::Range` provides.
* Rust `Vec` used as a stack (`PathWalker.current_path`) is modelled as
  a `List` whose head is the top of the stack (the most recent push).
* `HashMap<Pos, PosPath>` is modelled as an association list with
  key-based lookup; the `entry()` insert/replace logic is translated
  verbatim.
-/

namespace Civng

/-- The six move directions of a flat-topped hex grid (`hexpos.rs`). -/
inductive Direction where
  | North
  | NorthEast
  | SouthEast
  | South
  | SouthWest
  | NorthWest
deriving DecidableEq, Repr

/-- `Direction::all()`: the fixed direction order used everywhere. -/
def Direction.all : List Direction :=
  [Direction.North, Direction.NorthEast, Direction.SouthEast,
   Direction.South, Direction.SouthWest, Direction.NorthWest]

/-- Cube-coordinate position (`Pos` in `hexpos.rs`). -/
structure Pos where
  x : ℤ
  y : ℤ
  z : ℤ
deriving DecidableEq, Repr

/-- `Pos::new`. -/
def Pos.new (x y z : ℤ) : Pos := ⟨x, y, z⟩

/-- `Pos::origin()`, the position `(0, 0, 0)`. -/
def Pos.origin : Pos := ⟨0, 0, 0⟩

/-- `Pos::neighbor`: move a single cell in the given direction. -/
def Pos.neighbor (p : Pos) (d : Direction) : Pos :=
  match d with
  | Direction.North => ⟨p.x, p.y + 1, p.z - 1⟩
  | Direction.NorthEast => ⟨p.x + 1, p.y, p.z - 1⟩
  | Direction.SouthEast => ⟨p.x + 1, p.y - 1, p.z⟩
  | Direction.South => ⟨p.x, p.y - 1, p.z + 1⟩
  | Direction.SouthWest => ⟨p.x - 1, p.y, p.z + 1⟩
  | Direction.NorthWest => ⟨p.x - 1, p.y + 1, p.z⟩

/-- `Pos::around`: the six neighbors, in `Direction::all()` order. -/
def Pos.around (p : Pos) : List Pos :=
  Direction.all.map p.neighbor

/-- `Pos::translate`. -/
def Pos.translate (p q : Pos) : Pos := ⟨p.x + q.x, p.y + q.y, p.z + q.z⟩

/-- `Pos::amplify`. -/
def Pos.amplify (p : Pos) (factor : ℤ) : Pos := ⟨p.x * factor, p.y * factor, p.z * factor⟩

/-- `Pos::neg`. -/
def Pos.neg (p : Pos) : Pos := ⟨-p.x, -p.y, -p.z⟩

/-- "odd-q" offset position (`OffsetPos` in `hexpos.rs`), origin top-left. -/
structure OffsetPos where
  x : ℤ
  y : ℤ
deriving DecidableEq, Repr

/-- `OffsetPos::new`. -/
def OffsetPos.new (x y : ℤ) : OffsetPos := ⟨x, y⟩

/-- `Pos::to_offset_pos`.  Rust `self.x / 2` is `i32` truncated division. -/
def Pos.to_offset_pos (p : Pos) : OffsetPos :=
  ⟨p.x, p.z + Int.tdiv p.x 2⟩

/-- `OffsetPos::to_pos`.  `div_rem(&2)` is truncated division with the
remainder taking the sign of the dividend, i.e. `Int.tdiv`/`Int.tmod`. -/
def OffsetPos.to_pos (o : OffsetPos) : Pos :=
  let halfx := Int.tdiv o.x 2
  let remx := Int.tmod o.x 2
  ⟨o.x, (-o.y) + (-halfx - remx), o.y + (-halfx)⟩

end Civng

/-- C9: for every cube position `p` with `p.x + p.y + p.z = 0` (negative
components included), converting to the offset system and back is the
identity: `p.to_offset_pos().to_pos() == p`. -/
theorem c9_offset_roundtrip (p : Civng.Pos) (h : p.x + p.y + p.z = 0) :
    p.to_offset_pos.to_pos = p := by
  obtain ⟨x, y, z⟩ := p
  simp only [Civng.Pos.to_offset_pos, Civng.OffsetPos.to_pos]
  have hdm : 2 * Int.tdiv x 2 + Int.tmod x 2 = x := Int.tdiv_add_tmod x 2
  simp only at h ⊢
  refine congrArg₂ (fun a b => Civng.Pos.mk x a b) (by omega) (by omega)

/-- Witness for C9 at the concrete position `(-3, 5, -2)`. -/
theorem c9_offset_roundtrip_witness :
    (-3 : ℤ) + 5 + (-2) = 0 ∧
      (Civng.Pos.new (-3) 5 (-2)).to_offset_pos.to_pos = Civng.Pos.new (-3) 5 (-2) :=
  ⟨by decide, c9_offset_roundtrip (Civng.Pos.new (-3) 5 (-2)) (by decide)⟩

namespace Civng

/-- Modifier category tag (`ModifierType` in `combat.rs`). -/
inductive ModifierType where
  | Terrain
  | Flanking
deriving DecidableEq, Repr

/-- A signed percentage combat modifier (`Modifier` in `combat.rs`);
`amount` is the Rust `i8` field (`20 == +20%`). -/
structure Modifier where
  amount : ℤ
  modtype : ModifierType
deriving DecidableEq, Repr

/-- `Modifier::new`. -/
def Modifier.new (amount : ℤ) (modtype : ModifierType) : Modifier := ⟨amount, modtype⟩

/-- `sum_modifiers`: fold of the `amount` fields (widened to `i16`). -/
def sum_modifiers (modifiers : List Modifier) : ℤ :=
  modifiers.foldl (fun acc m => acc + m.amount) 0

/-- `apply_modifier`: `strength * (1 + modifier/100)` (source `f32`,
modelled exactly on `ℚ`). -/
def apply_modifier (strength : ℚ) (modifier : ℤ) : ℚ :=
  strength * (1 + (modifier : ℚ) / 100)

/-- `apply_penalty_for_damaged_unit`: the `(100 - hp) / 20` band is `u8`
integer division computed before the cast to `f32`. -/
def apply_penalty_for_damaged_unit (dealt_dmg : ℚ) (dealer_hp : ℕ) : ℚ :=
  let penalty : ℚ := (((100 - dealer_hp) / 20 : ℕ) : ℚ) * (1/10)
  dealt_dmg - dealt_dmg * penalty

/-- Inclusive damage range, `DmgRange = (u8, u8)` in `combat.rs`. -/
def DmgRange := ℕ × ℕ
deriving DecidableEq

/-- `compute_dmg_range` (`combat.rs`), with `f32` arithmetic modelled on
`ℚ` and `f.floor() as u8` modelled as `(Rat.floor f).toNat`. -/
def compute_dmg_range (source_strength : ℚ) (source_hp : ℕ)
    (target_strength : ℚ) (ranged : Bool) : DmgRange :=
  let target_is_weak := source_strength > target_strength
  let strong_strength := if target_is_weak then source_strength else target_strength
  let weak_strength := if target_is_weak then target_strength else source_strength
  let r := strong_strength / weak_strength
  let m0 : ℚ := 1/2 + (r + 3)^4 / 512
  let m : ℚ := if target_is_weak then m0 else 1 / m0
  let base_min : ℚ := if ranged then 20 else 40
  let base_spread : ℚ := 30
  let mn0 := apply_penalty_for_damaged_unit (base_min * m) source_hp
  let mn := if mn0 < 1 then 1 else mn0
  let spread := apply_penalty_for_damaged_unit (base_spread * m) source_hp
  ((Rat.floor mn).toNat, (Rat.floor (mn + spread)).toNat)

/-- Combat snapshot (`CombatStats` in `combat.rs`).  The unit ids and
display names play no role in the arithmetic and are omitted. -/
structure CombatStats where
  ranged : Bool
  attacker_base_strength : ℕ
  defender_base_strength : ℕ
  attacker_starting_hp : ℕ
  defender_starting_hp : ℕ
  dmg_to_attacker : ℕ
  dmg_to_defender : ℕ
  attacker_modifiers : List Modifier
  defender_modifiers : List Modifier
deriving DecidableEq, Repr

/-- `CombatStats::attacker_modifiers_total`. -/
def CombatStats.attacker_modifiers_total (cs : CombatStats) : ℤ :=
  sum_modifiers cs.attacker_modifiers

/-- `CombatStats::defender_modifiers_total`. -/
def CombatStats.defender_modifiers_total (cs : CombatStats) : ℤ :=
  sum_modifiers cs.defender_modifiers

/-- `CombatStats::attacker_strength`. -/
def CombatStats.attacker_strength (cs : CombatStats) : ℚ :=
  apply_modifier (cs.attacker_base_strength : ℚ) cs.attacker_modifiers_total

/-- `CombatStats::defender_strength`. -/
def CombatStats.defender_strength (cs : CombatStats) : ℚ :=
  apply_modifier (cs.defender_base_strength : ℚ) cs.defender_modifiers_total

/-- `CombatStats::dmgrange_to_attacker`: fixed at `(0, 0)` for ranged
engagements. -/
def CombatStats.dmgrange_to_attacker (cs : CombatStats) : DmgRange :=
  if cs.ranged then (0, 0)
  else compute_dmg_range cs.defender_strength cs.defender_starting_hp
    cs.attacker_strength cs.ranged

/-- `CombatStats::dmgrange_to_defender`. -/
def CombatStats.dmgrange_to_defender (cs : CombatStats) : DmgRange :=
  compute_dmg_range cs.attacker_strength cs.attacker_starting_hp
    cs.defender_strength cs.ranged

/-- `CombatStats::attacker_remaining_hp`. -/
def CombatStats.attacker_remaining_hp (cs : CombatStats) : ℕ :=
  if cs.dmg_to_attacker > cs.attacker_starting_hp then 0
  else cs.attacker_starting_hp - cs.dmg_to_attacker

/-- `CombatStats::defender_remaining_hp`. -/
def CombatStats.defender_remaining_hp (cs : CombatStats) : ℕ :=
  if cs.dmg_to_defender > cs.defender_starting_hp then 0
  else cs.defender_starting_hp - cs.dmg_to_defender

/-- `CombatStats::roll`, with the two uniform draws of `roll_dice` made
explicit parameters.  The tentative hit points are the source's `i16`
values; the revival damage `starting_hp - 1` is `u8` subtraction, which
the theorems guard with `1 ≤ starting_hp`. -/
def CombatStats.roll (cs : CombatStats) (dmg_to_attacker dmg_to_defender : ℕ) :
    CombatStats :=
  let defender_hp : ℤ := (cs.defender_starting_hp : ℤ) - dmg_to_defender
  let attacker_hp : ℤ := (cs.attacker_starting_hp : ℤ) - dmg_to_attacker
  if defender_hp < 0 ∧ attacker_hp < 0 then
    if attacker_hp > defender_hp then
      { cs with dmg_to_attacker := cs.attacker_starting_hp - 1,
                dmg_to_defender := dmg_to_defender }
    else
      { cs with dmg_to_attacker := dmg_to_attacker,
                dmg_to_defender := cs.defender_starting_hp - 1 }
  else
    { cs with dmg_to_attacker := dmg_to_attacker,
              dmg_to_defender := dmg_to_defender }

/-- Membership of a draw in an inclusive `DmgRange`, the guarantee
`roll_dice` (a uniform draw from `Range::new(min, max + 1)`) provides. -/
def DmgRange.mem (range : DmgRange) (draw : ℕ) : Prop :=
  range.1 ≤ draw ∧ draw ≤ range.2

/-- The melee snapshot of the end-to-end scenario: strength 8 against
strength 8, both at 100 HP, no modifiers. -/
def full_hp_duel : CombatStats :=
  { ranged := false
    attacker_base_strength := 8
    defender_base_strength := 8
    attacker_starting_hp := 100
    defender_starting_hp := 100
    dmg_to_attacker := 0
    dmg_to_defender := 0
    attacker_modifiers := []
    defender_modifiers := [] }

/-- The same duel with both sides at 40 HP, used to exhibit a
simultaneous double death at exactly 0 HP. -/
def wounded_duel : CombatStats :=
  { full_hp_duel with attacker_starting_hp := 40, defender_starting_hp := 40 }

end Civng

namespace Civng

/-- The full-HP duel with the attacker flagged ranged, used as a witness
instance for the ranged-engagement claim. -/
def ranged_duel : CombatStats :=
  { full_hp_duel with ranged := true }

end Civng

open Civng in
/-- C10: in the melee duel of two strength-8, 100-HP units with no
modifiers, both computed damage ranges equal `[40, 70]` (the strength
ratio is 1, so `m = 1`, and the self-damage penalty is 0 at full HP). -/
theorem c10_even_duel_ranges :
    full_hp_duel.dmgrange_to_defender = (40, 70) ∧
      full_hp_duel.dmgrange_to_attacker = (40, 70) := by
  constructor <;>
    norm_num [full_hp_duel, CombatStats.dmgrange_to_defender,
      CombatStats.dmgrange_to_attacker, compute_dmg_range,
      apply_penalty_for_damaged_unit, CombatStats.attacker_strength,
      CombatStats.defender_strength, CombatStats.attacker_modifiers_total,
      CombatStats.defender_modifiers_total, sum_modifiers, apply_modifier,
      Rat.floor, Int.toNat]

open Civng in
/-- C1 is false as stated: in the 40-HP melee duel both draws 40 lie in
the computed damage range `[28, 49]` of each side, yet after `roll()`
both `attacker_remaining_hp()` and `defender_remaining_hp()` are 0 —
the revival only triggers when both tentative HP are strictly negative. -/
theorem c1_counterexample :
    DmgRange.mem wounded_duel.dmgrange_to_attacker 40 ∧
      DmgRange.mem wounded_duel.dmgrange_to_defender 40 ∧
      (wounded_duel.roll 40 40).attacker_remaining_hp = 0 ∧
      (wounded_duel.roll 40 40).defender_remaining_hp = 0 := by
  have hr : wounded_duel.dmgrange_to_attacker = (28, 49) ∧
      wounded_duel.dmgrange_to_defender = (28, 49) := by
    constructor <;>
      norm_num [wounded_duel, full_hp_duel, CombatStats.dmgrange_to_defender,
        CombatStats.dmgrange_to_attacker, compute_dmg_range,
        apply_penalty_for_damaged_unit, CombatStats.attacker_strength,
        CombatStats.defender_strength, CombatStats.attacker_modifiers_total,
        CombatStats.defender_modifiers_total, sum_modifiers, apply_modifier,
        Rat.floor, Int.toNat]
  refine ⟨by rw [hr.1]; exact ⟨by norm_num, by norm_num⟩,
    by rw [hr.2]; exact ⟨by norm_num, by norm_num⟩, ?_, ?_⟩ <;>
    norm_num [wounded_duel, full_hp_duel, CombatStats.roll,
      CombatStats.attacker_remaining_hp, CombatStats.defender_remaining_hp]

open Civng in
/-- C1 amended: for every snapshot with both starting HP at least 1 and
every outcome of the dice draws, after `roll()` the two damages never
both strictly exceed the starting HPs (so at most one side is driven
strictly past death), and when both draws would do so the "less dead"
side is revived to exactly 1 HP while the other ends at 0.  Both sides
can still die simultaneously, but only at exactly 0 tentative HP. -/
theorem c1_amended_death_arbitration (cs : CombatStats) (da dd : ℕ)
    (ha : 1 ≤ cs.attacker_starting_hp) (hd : 1 ≤ cs.defender_starting_hp) :
    ¬(cs.attacker_starting_hp < (cs.roll da dd).dmg_to_attacker ∧
        cs.defender_starting_hp < (cs.roll da dd).dmg_to_defender) ∧
      (cs.attacker_starting_hp < da → cs.defender_starting_hp < dd →
        ((cs.roll da dd).attacker_remaining_hp = 1 ∧
            (cs.roll da dd).defender_remaining_hp = 0) ∨
          ((cs.roll da dd).attacker_remaining_hp = 0 ∧
            (cs.roll da dd).defender_remaining_hp = 1)) := by
  simp only [CombatStats.roll, CombatStats.attacker_remaining_hp,
    CombatStats.defender_remaining_hp]
  split_ifs <;> simp_all <;> omega

open Civng in
/-- Witness for the amended C1 at the 40-HP duel with both draws 45. -/
theorem c1_amended_death_arbitration_witness :
    1 ≤ wounded_duel.attacker_starting_hp ∧
      1 ≤ wounded_duel.defender_starting_hp ∧
      (¬(wounded_duel.attacker_starting_hp <
            (wounded_duel.roll 45 45).dmg_to_attacker ∧
          wounded_duel.defender_starting_hp <
            (wounded_duel.roll 45 45).dmg_to_defender) ∧
        (wounded_duel.attacker_starting_hp < 45 →
          wounded_duel.defender_starting_hp < 45 →
          (((wounded_duel.roll 45 45).attacker_remaining_hp = 1 ∧
              (wounded_duel.roll 45 45).defender_remaining_hp = 0) ∨
            ((wounded_duel.roll 45 45).attacker_remaining_hp = 0 ∧
              (wounded_duel.roll 45 45).defender_remaining_hp = 1)))) :=
  ⟨by decide, by decide, c1_amended_death_arbitration wounded_duel 45 45
    (by decide) (by decide)⟩

open Civng in
/-- C7: in a ranged engagement the attacker takes no counter-damage:
`dmgrange_to_attacker()` is exactly `(0, 0)`, so any legal draw for the
attacker's incoming damage is 0, and after `roll()` the damage to the
attacker is 0 and `attacker_remaining_hp()` is the starting HP. -/
theorem c7_ranged_no_counter_damage (cs : CombatStats) (da dd : ℕ)
    (hranged : cs.ranged = true)
    (hda : DmgRange.mem cs.dmgrange_to_attacker da) :
    cs.dmgrange_to_attacker = (0, 0) ∧
      (cs.roll da dd).dmg_to_attacker = 0 ∧
      (cs.roll da dd).attacker_remaining_hp = cs.attacker_starting_hp := by
  have hrange : cs.dmgrange_to_attacker = (0, 0) := by
    simp [CombatStats.dmgrange_to_attacker, hranged]
  have hda0 : da = 0 := by
    rw [hrange] at hda
    exact Nat.le_antisymm hda.2 hda.1
  subst hda0
  refine ⟨hrange, ?_⟩
  simp only [CombatStats.roll, CombatStats.attacker_remaining_hp]
  split_ifs <;> simp_all <;> omega

open Civng in
/-- Witness for C7 at the ranged full-HP duel with draws 0 and 37. -/
theorem c7_ranged_no_counter_damage_witness :
    ranged_duel.ranged = true ∧
      DmgRange.mem ranged_duel.dmgrange_to_attacker 0 ∧
      (ranged_duel.dmgrange_to_attacker = (0, 0) ∧
        (ranged_duel.roll 0 37).dmg_to_attacker = 0 ∧
        (ranged_duel.roll 0 37).attacker_remaining_hp =
          ranged_duel.attacker_starting_hp) :=
  ⟨by decide, ⟨by decide, by decide⟩,
    c7_ranged_no_counter_damage ranged_duel 0 37 (by decide)
      ⟨by decide, by decide⟩⟩

namespace Civng

/-- A path of positions (`PosPath` in `hexpos.rs`): chronological, the
first entry is the origin, the last the current endpoint. -/
structure PosPath where
  stack : List Pos
deriving DecidableEq, Repr

/-- `PosPath::new`. -/
def PosPath.new (origin : Pos) : PosPath := ⟨[origin]⟩

/-- `PosPath::from` (named `from_` because `from` is reserved in Lean). -/
def PosPath.from_ (p : PosPath) : Pos := p.stack.headD Pos.origin

/-- `PosPath::to`. -/
def PosPath.to (p : PosPath) : Pos := p.stack.getLastD Pos.origin

/-- `PosPath::before_last`: the position before the last, if any. -/
def PosPath.before_last (p : PosPath) : Option Pos :=
  if p.stack.length > 1 then some (p.stack.getD (p.stack.length - 2) Pos.origin)
  else none

/-- `PosPath::steps`: the origin is not counted. -/
def PosPath.steps (p : PosPath) : ℕ := p.stack.length - 1

/-- `PosPath::push`. -/
def PosPath.push (p : PosPath) (pos : Pos) : PosPath := ⟨p.stack ++ [pos]⟩

/-- `PosPath::go`: push the neighbor of the endpoint. -/
def PosPath.go (p : PosPath) (towards : Direction) : PosPath :=
  p.push (p.to.neighbor towards)

/-- Iterated `PosPath::go`, the loop body of
`PathWalker::get_current_path`. -/
def PosPath.goAll (p : PosPath) (ds : List Direction) : PosPath :=
  ds.foldl PosPath.go p

/-- The depth-first path enumerator (`PathWalker` in `hexpos.rs`).
`current_path` is the Rust `Vec<Direction>` stack, stored head-first:
the list head is the most recently pushed (deepest) direction. -/
structure PathWalker where
  origin : Pos
  max_depth : ℕ
  backing_off : Bool
  current_path : List Direction
deriving DecidableEq, Repr

/-- `PathWalker::new`. -/
def PathWalker.new (origin : Pos) (max_depth : ℕ) : PathWalker :=
  ⟨origin, max_depth, false, []⟩

/-- `PathWalker::nextdir`: cyclic successor, ending after NorthWest. -/
def PathWalker.nextdir : Direction → Option Direction
  | Direction.North => some Direction.NorthEast
  | Direction.NorthEast => some Direction.SouthEast
  | Direction.SouthEast => some Direction.South
  | Direction.South => some Direction.SouthWest
  | Direction.SouthWest => some Direction.NorthWest
  | Direction.NorthWest => none

/-- `PathWalker::get_current_path`: replay the pushed directions from
the origin (the Rust loop iterates the `Vec` from oldest to newest,
i.e. our list reversed). -/
def PathWalker.get_current_path (w : PathWalker) : PosPath :=
  (PosPath.new w.origin).goAll w.current_path.reverse

/-- `PathWalker::backoff`. -/
def PathWalker.backoff (w : PathWalker) : PathWalker :=
  { w with backing_off := true }

/-- The `tick`/pop/retry cascade of `PathWalker::next`: advance the
deepest direction if it has a cyclic successor, otherwise pop it and
retry on the parent (`hexpos.rs` lines 337-375).  Rust expresses this
as recursion through `next` with `backing_off` transiently true. -/
def PathWalker.nextAux (o : Pos) (d : ℕ) : List Direction → Option PosPath × PathWalker
  | [] => (none, ⟨o, d, false, []⟩)
  | a :: q =>
    match PathWalker.nextdir a with
    | some b =>
      ((⟨o, d, false, b :: q⟩ : PathWalker).get_current_path,
        (⟨o, d, false, b :: q⟩ : PathWalker))
    | none => PathWalker.nextAux o d q

/-- `PathWalker::next`: push North while depth remains and we are not
backing off, otherwise run the tick/pop cascade. -/
def PathWalker.next (w : PathWalker) : Option PosPath × PathWalker :=
  if w.max_depth = 0 then (none, w)
  else if w.backing_off = false ∧ w.current_path.length < w.max_depth then
    let w2 : PathWalker := ⟨w.origin, w.max_depth, w.backing_off, Direction.North :: w.current_path⟩
    (some w2.get_current_path, w2)
  else PathWalker.nextAux w.origin w.max_depth w.current_path

/-- Repeated calls to `PathWalker::next` until it returns `None`,
collecting the yielded paths.  The fuel argument only bounds the
recursion; `runAll` supplies strictly more fuel than the walker can
ever yield, as proved below. -/
def PathWalker.runFuel : ℕ → PathWalker → List PosPath
  | 0, _ => []
  | fuel + 1, w =>
    match PathWalker.next w with
    | (none, _) => []
    | (some p, w2) => p :: PathWalker.runFuel fuel w2

/-- The full enumeration of the walker: call `next` repeatedly, with no
`backoff`, until exhaustion. -/
def PathWalker.runAll (w : PathWalker) : List PosPath :=
  PathWalker.runFuel (6 ^ (w.max_depth + 1)) w

/-- The positions visited when walking `ds` (chronological order) from
`o`: the specification-side picture of `get_current_path`. -/
def posChain : Pos → List Direction → List Pos
  | o, [] => [o]
  | o, d :: ds => o :: posChain (o.neighbor d) ds

/-- Pre-order listing of the direction-stack tree: the node `p` followed
by the subtrees of its children `b :: p` for the six directions in
order, to remaining depth `n`. -/
def preGen : ℕ → List Direction → List (List Direction)
  | 0, p => [p]
  | n + 1, p => p :: Direction.all.flatMap (fun b => preGen n (b :: p))

/-- The directions strictly after a given one in the fixed order. -/
def dirsAfter : Direction → List Direction
  | Direction.North =>
    [Direction.NorthEast, Direction.SouthEast, Direction.South,
     Direction.SouthWest, Direction.NorthWest]
  | Direction.NorthEast =>
    [Direction.SouthEast, Direction.South, Direction.SouthWest, Direction.NorthWest]
  | Direction.SouthEast => [Direction.South, Direction.SouthWest, Direction.NorthWest]
  | Direction.South => [Direction.SouthWest, Direction.NorthWest]
  | Direction.SouthWest => [Direction.NorthWest]
  | Direction.NorthWest => []

/-- Descendants of the stack `p` in pre-order, for maximum depth `d`. -/
def descend (d : ℕ) (p : List Direction) : List (List Direction) :=
  if p.length < d then Direction.all.flatMap (fun b => preGen (d - p.length - 1) (b :: p))
  else []

/-- Stacks visited strictly after `p`'s subtree: for each frame of `p`,
the subtrees of its later siblings, innermost frames first. -/
def after (d : ℕ) : List Direction → List (List Direction)
  | [] => []
  | a :: q =>
    (dirsAfter a).flatMap (fun b => preGen (d - q.length - 1) (b :: q)) ++ after d q

/-- All stacks the walker will still visit after having just yielded
`p` (for the empty stack: the whole enumeration). -/
def suffixOf (d : ℕ) (p : List Direction) : List (List Direction) :=
  descend d p ++ after d p

/-- The pre-order successor among stacks of maximal length: advance the
deepest direction, else pop and retry. -/
def succStack : List Direction → Option (List Direction)
  | [] => none
  | a :: q =>
    match PathWalker.nextdir a with
    | some b => some (b :: q)
    | none => succStack q

/-- The stack yielded by the walker's next call from a non-backing-off
state with stack `p`. -/
def nextExpected (d : ℕ) (p : List Direction) : Option (List Direction) :=
  if p.length < d then some (Direction.North :: p) else succStack p

end Civng

namespace Civng

theorem goAll_stack (ds : List Direction) (p : PosPath) (h : p.stack ≠ []) :
    (p.goAll ds).stack = p.stack.dropLast ++ posChain (p.stack.getLastD Pos.origin) ds := by
  induction ds generalizing p with
  | nil =>
    simp only [PosPath.goAll, List.foldl_nil, posChain]
    rw [List.getLastD_eq_getLast?]
    rw [List.getLast?_eq_getLast _ h]
    simp [List.dropLast_append_getLast h]
  | cons d ds ih =>
    have hst : (p.go d).stack = p.stack ++ [p.to.neighbor d] := rfl
    have hne : (p.go d).stack ≠ [] := by simp [hst]
    have : (p.goAll (d :: ds)) = ((p.go d).goAll ds) := rfl
    rw [this, ih _ hne, hst]
    simp only [List.dropLast_concat, List.getLastD_concat]
    have hto : p.to = p.stack.getLastD Pos.origin := rfl
    rw [hto, posChain]
    have hdg : p.stack.dropLast ++ [p.stack.getLastD Pos.origin] = p.stack := by
      rw [List.getLastD_eq_getLast?, List.getLast?_eq_getLast _ h]
      exact List.dropLast_append_getLast h
    rw [← hdg]
    simp

theorem get_current_path_stack (o : Pos) (d : ℕ) (bo : Bool) (q : List Direction) :
    (PathWalker.get_current_path ⟨o, d, bo, q⟩).stack = posChain o q.reverse := by
  unfold PathWalker.get_current_path
  rw [goAll_stack _ _ (by simp [PosPath.new])]
  simp [PosPath.new]

theorem posChain_length (o : Pos) (ds : List Direction) :
    (posChain o ds).length = ds.length + 1 := by
  induction ds generalizing o with
  | nil => rfl
  | cons d ds ih => simp [posChain, ih]

theorem posChain_head (o : Pos) (ds : List Direction) :
    (posChain o ds).headD Pos.origin = o := by
  cases ds <;> rfl

theorem neighbor_injective (p : Pos) (a b : Direction)
    (h : p.neighbor a = p.neighbor b) : a = b := by
  cases a <;> cases b <;> first
    | rfl
    | (exfalso
       simp only [Pos.neighbor, Pos.mk.injEq] at h
       omega)

theorem posChain_injective (o : Pos) (l1 l2 : List Direction)
    (h : posChain o l1 = posChain o l2) : l1 = l2 := by
  induction l1 generalizing o l2 with
  | nil =>
    cases l2 with
    | nil => rfl
    | cons b t2 =>
      exfalso
      have := congrArg List.length h
      simp [posChain, posChain_length] at this
  | cons a t1 ih =>
    cases l2 with
    | nil =>
      exfalso
      have := congrArg List.length h
      simp [posChain, posChain_length] at this
    | cons b t2 =>
      simp only [posChain, List.cons.injEq] at h
      have htails := h.2
      have hheads : o.neighbor a = o.neighbor b := by
        have h1 := posChain_head (o.neighbor a) t1
        have h2 := posChain_head (o.neighbor b) t2
        rw [htails] at h1
        exact h1.symm.trans h2
      have hab := neighbor_injective o a b hheads
      subst hab
      exact congrArg₂ List.cons rfl (ih _ _ htails)

theorem posChain_chain (o : Pos) (ds : List Direction) :
    List.Chain' (fun a b => ∃ dir, b = a.neighbor dir) (posChain o ds) := by
  induction ds generalizing o with
  | nil => simp [posChain]
  | cons d ds ih =>
    rw [posChain]
    refine List.chain'_cons'.mpr ⟨?_, ih (o.neighbor d)⟩
    intro y hy
    have hh : (posChain (o.neighbor d) ds).head? = some (o.neighbor d) := by
      cases ds <;> rfl
    rw [hh] at hy
    simp only [Option.mem_def, Option.some.injEq] at hy
    exact ⟨d, hy.symm⟩

end Civng

namespace Civng

theorem dirsAfter_nextdir (a : Direction) :
    dirsAfter a = match PathWalker.nextdir a with
      | some b => b :: dirsAfter b
      | none => [] := by
  cases a <;> rfl

theorem direction_all_eq :
    Direction.all = Direction.North :: dirsAfter Direction.North := rfl

theorem preGen_eq (d : ℕ) (p : List Direction) (hp : p.length ≤ d) :
    preGen (d - p.length) p = p :: descend d p := by
  rcases Nat.lt_or_ge p.length d with hlt | hge
  · have hd : d - p.length = (d - p.length - 1) + 1 := by omega
    rw [hd, preGen, descend, if_pos hlt]
  · have he : p.length = d := le_antisymm hp hge
    have hd : d - p.length = 0 := by omega
    rw [hd, preGen, descend, if_neg (by omega)]

theorem succStack_length (p q : List Direction) (h : succStack p = some q) :
    q.length ≤ p.length := by
  induction p with
  | nil => simp [succStack] at h
  | cons a t ih =>
    rw [succStack] at h
    cases hnd : PathWalker.nextdir a with
    | some b =>
      rw [hnd] at h
      simp only [Option.some.injEq] at h
      subst h
      simp
    | none =>
      rw [hnd] at h
      have := ih h
      simp
      omega

theorem after_succ (d : ℕ) (p : List Direction) (hp : p.length ≤ d) :
    (succStack p = none → after d p = []) ∧
      (∀ q, succStack p = some q → after d p = q :: suffixOf d q) := by
  induction p with
  | nil => exact ⟨fun _ => rfl, fun q h => by simp [succStack] at h⟩
  | cons a t ih =>
    have ht : t.length ≤ d := by
      simp only [List.length_cons] at hp
      omega
    constructor
    · intro h
      rw [succStack] at h
      cases hnd : PathWalker.nextdir a with
      | some b => rw [hnd] at h; simp at h
      | none =>
        rw [hnd] at h
        rw [after, dirsAfter_nextdir, hnd]
        simp only [List.flatMap_nil, List.nil_append]
        exact (ih ht).1 h
    · intro q h
      rw [succStack] at h
      cases hnd : PathWalker.nextdir a with
      | some b =>
        rw [hnd] at h
        simp only [Option.some.injEq] at h
        subst h
        rw [after, dirsAfter_nextdir, hnd]
        have hlen : (b :: t).length ≤ d := by simpa using hp
        have hpre : preGen (d - t.length - 1) (b :: t) = (b :: t) :: descend d (b :: t) := by
          have : d - (b :: t).length = d - t.length - 1 := by simp; omega
          rw [← this]
          exact preGen_eq d (b :: t) hlen
        rw [List.flatMap_cons, hpre]
        simp only [List.cons_append, List.cons.injEq, true_and]
        rw [suffixOf]
        rw [after]
        simp [List.append_assoc]
      | none =>
        rw [hnd] at h
        rw [after, dirsAfter_nextdir, hnd]
        simp only [List.flatMap_nil, List.nil_append]
        exact (ih ht).2 q h

theorem suffix_step_none (d : ℕ) (p : List Direction) (hp : p.length ≤ d)
    (h : nextExpected d p = none) : suffixOf d p = [] := by
  rw [nextExpected] at h
  split_ifs at h with hlt
  · rw [suffixOf, descend, if_neg (by omega)]
    simp only [List.nil_append]
    exact (after_succ d p hp).1 h

theorem suffix_step_some (d : ℕ) (p q : List Direction) (hp : p.length ≤ d)
    (h : nextExpected d p = some q) :
    suffixOf d p = q :: suffixOf d q ∧ q.length ≤ d := by
  rw [nextExpected] at h
  split_ifs at h with hlt
  · simp only [Option.some.injEq] at h
    subst h
    constructor
    · rw [suffixOf, descend, if_pos hlt, direction_all_eq, List.flatMap_cons]
      have hlen : (Direction.North :: p).length ≤ d := by simp; omega
      have hpre : preGen (d - p.length - 1) (Direction.North :: p) =
          (Direction.North :: p) :: descend d (Direction.North :: p) := by
        have : d - (Direction.North :: p).length = d - p.length - 1 := by
          simp only [List.length_cons]
          omega
        rw [← this]
        exact preGen_eq d (Direction.North :: p) hlen
      rw [hpre]
      simp only [List.cons_append, List.cons.injEq, true_and]
      rw [suffixOf, after]
      simp [List.append_assoc]
    · simp
      omega
  · have := (after_succ d p hp).2 q h
    refine ⟨?_, le_trans (succStack_length p q h) hp⟩
    rw [suffixOf, descend, if_neg (by omega)]
    simpa using this

end Civng

namespace Civng

theorem nextAux_eq (o : Pos) (d : ℕ) (p : List Direction) :
    PathWalker.nextAux o d p = match succStack p with
      | none => (none, ⟨o, d, false, []⟩)
      | some q =>
        (some (PathWalker.get_current_path ⟨o, d, false, q⟩), ⟨o, d, false, q⟩) := by
  induction p with
  | nil => rfl
  | cons a t ih =>
    rw [PathWalker.nextAux, succStack]
    cases hnd : PathWalker.nextdir a with
    | some b => rfl
    | none => exact ih

theorem next_step_none (w : PathWalker) (hbo : w.backing_off = false)
    (_hlen : w.current_path.length ≤ w.max_depth)
    (h : nextExpected w.max_depth w.current_path = none) :
    (PathWalker.next w).1 = none := by
  rw [nextExpected] at h
  rw [PathWalker.next]
  split_ifs with h0 hpush
  · rfl
  · exfalso
    rw [if_pos hpush.2] at h
    simp at h
  · rw [if_neg (by tauto)] at h
    rw [nextAux_eq, h]

theorem next_step_some (w : PathWalker) (q : List Direction)
    (hbo : w.backing_off = false) (hlen : w.current_path.length ≤ w.max_depth)
    (h : nextExpected w.max_depth w.current_path = some q) :
    PathWalker.next w =
      (some (PathWalker.get_current_path ⟨w.origin, w.max_depth, false, q⟩),
        ⟨w.origin, w.max_depth, false, q⟩) := by
  rw [nextExpected] at h
  rw [PathWalker.next]
  split_ifs with h0 hpush
  · exfalso
    rw [if_neg (by omega)] at h
    have hnil : w.current_path = [] := by
      cases hcp : w.current_path with
      | nil => rfl
      | cons a t => exfalso; rw [hcp] at hlen; rw [h0] at hlen; simp at hlen
    rw [hnil] at h
    simp [succStack] at h
  · rw [if_pos hpush.2] at h
    simp only [Option.some.injEq] at h
    subst h
    obtain ⟨o, d, bo, cp⟩ := w
    simp only at hbo
    subst hbo
    rfl
  · rw [if_neg (by tauto)] at h
    rw [nextAux_eq, h]

theorem runFuel_eq (fuel : ℕ) (o : Pos) (d : ℕ) (p : List Direction)
    (hp : p.length ≤ d) (hfuel : (suffixOf d p).length < fuel) :
    PathWalker.runFuel fuel ⟨o, d, false, p⟩ =
      (suffixOf d p).map (fun q => PathWalker.get_current_path ⟨o, d, false, q⟩) := by
  induction fuel generalizing p with
  | zero => omega
  | succ n ih =>
    rw [PathWalker.runFuel]
    cases hne : nextExpected d p with
    | none =>
      have hsuf := suffix_step_none d p hp hne
      have hnext := next_step_none ⟨o, d, false, p⟩ rfl hp hne
      rw [hsuf]
      cases hnx : PathWalker.next ⟨o, d, false, p⟩ with
      | mk fst snd =>
        rw [hnx] at hnext
        simp only at hnext
        subst hnext
        rfl
    | some q =>
      obtain ⟨hsuf, hqlen⟩ := suffix_step_some d p q hp hne
      have hnext := next_step_some ⟨o, d, false, p⟩ q rfl hp hne
      rw [hnext, hsuf]
      simp only [List.map_cons, List.cons.injEq, true_and]
      exact ih q hqlen (by rw [hsuf] at hfuel; simp at hfuel; omega)

end Civng

namespace Civng

theorem sum_range_pow_six_succ (n : ℕ) :
    ∑ k in Finset.range (n + 1), 6 ^ k = 6 * ∑ k in Finset.range n, 6 ^ k + 1 := by
  rw [Finset.sum_range_succ']
  simp only [pow_succ, pow_zero]
  rw [← Finset.sum_mul]
  ring

theorem preGen_length (n : ℕ) (p : List Direction) :
    (preGen n p).length = ∑ k in Finset.range (n + 1), 6 ^ k := by
  induction n generalizing p with
  | zero => simp [preGen]
  | succ m ih =>
    rw [preGen]
    simp only [List.length_cons, List.length_flatMap, Direction.all, List.map_cons,
      Function.comp, ih, List.map_nil, List.sum_cons, List.sum_nil]
    rw [sum_range_pow_six_succ (m + 1)]
    omega

theorem sum_Icc_pow_six (d : ℕ) :
    ∑ k in Finset.Icc 1 d, 6 ^ k = 6 * ∑ k in Finset.range d, 6 ^ k := by
  induction d with
  | zero => simp
  | succ m ih =>
    rw [Finset.sum_Icc_succ_top (by omega), ih, Finset.sum_range_succ]
    ring

theorem suffixOf_nil_length (d : ℕ) :
    (suffixOf d []).length = ∑ k in Finset.Icc 1 d, 6 ^ k := by
  rw [suffixOf, after, descend, sum_Icc_pow_six]
  rcases Nat.eq_zero_or_pos d with h0 | hpos
  · subst h0
    simp
  · rw [if_pos (by simpa using hpos)]
    simp only [List.append_nil, List.length_flatMap, Direction.all, List.map_cons,
      Function.comp, preGen_length, List.map_nil, List.sum_cons, List.sum_nil]
    have hd : d - List.length ([] : List Direction) - 1 + 1 = d := by
      simp only [List.length_nil]
      omega
    rw [hd]
    omega

theorem sum_Icc_pow_six_lt (d : ℕ) :
    ∑ k in Finset.Icc 1 d, 6 ^ k < 6 ^ (d + 1) := by
  induction d with
  | zero => simp
  | succ m ih =>
    rw [Finset.sum_Icc_succ_top (by omega)]
    have h1 : (6 : ℕ) ^ (m + 2) = 6 ^ (m + 1) * 6 := by ring
    omega

theorem mem_preGen (n : ℕ) (p q : List Direction) (h : q ∈ preGen n p) :
    p <:+ q ∧ q.length ≤ p.length + n := by
  induction n generalizing p q with
  | zero =>
    rw [preGen] at h
    simp only [List.mem_singleton] at h
    subst h
    exact ⟨List.suffix_rfl, by omega⟩
  | succ m ih =>
    rw [preGen] at h
    simp only [List.mem_cons, List.mem_flatMap] at h
    rcases h with h | ⟨b, _, hq⟩
    · subst h
      exact ⟨List.suffix_rfl, by omega⟩
    · obtain ⟨hsuf, hlen⟩ := ih (b :: p) q hq
      refine ⟨(List.suffix_cons b p).trans hsuf, ?_⟩
      simp only [List.length_cons] at hlen
      omega

theorem suffix_eq_of_length {α : Type} (l1 l2 q : List α)
    (h1 : l1 <:+ q) (h2 : l2 <:+ q) (hlen : l1.length = l2.length) : l1 = l2 := by
  obtain ⟨t1, ht1⟩ := h1
  obtain ⟨t2, ht2⟩ := h2
  have hq := ht1.trans ht2.symm
  have hlt : t1.length = t2.length := by
    have := congrArg List.length hq
    simp at this
    omega
  exact (List.append_inj hq hlt).2

theorem preGen_nodup (n : ℕ) (p : List Direction) : (preGen n p).Nodup := by
  induction n generalizing p with
  | zero => simp [preGen]
  | succ m ih =>
    rw [preGen]
    refine List.Nodup.cons ?_ ?_
    · intro hmem
      simp only [List.mem_flatMap] at hmem
      obtain ⟨b, _, hq⟩ := hmem
      obtain ⟨hsuf, _⟩ := mem_preGen m (b :: p) p hq
      have := hsuf.length_le
      simp at this
    · rw [List.nodup_flatMap]
      refine ⟨fun b _ => ih (b :: p), ?_⟩
      have hall : Direction.all.Nodup := by decide
      refine hall.imp ?_
      intro b c hbc
      simp only [Function.onFun]
      rw [List.disjoint_left]
      intro q hq hq2
      obtain ⟨hs1, _⟩ := mem_preGen m (b :: p) q hq
      obtain ⟨hs2, _⟩ := mem_preGen m (c :: p) q hq2
      have heq := suffix_eq_of_length (b :: p) (c :: p) q hs1 hs2 (by simp)
      simp only [List.cons.injEq] at heq
      exact hbc heq.1

end Civng

namespace Civng

theorem suffixOf_nil_eq (d : ℕ) : suffixOf d [] = descend d [] := by
  rw [suffixOf, after, List.append_nil]

theorem suffixOf_nil_nodup (d : ℕ) : (suffixOf d []).Nodup := by
  rw [suffixOf_nil_eq, descend]
  split_ifs
  · rw [List.nodup_flatMap]
    refine ⟨fun b _ => preGen_nodup _ _, ?_⟩
    have hall : Direction.all.Nodup := by decide
    refine hall.imp ?_
    intro b c hbc
    simp only [Function.onFun]
    rw [List.disjoint_left]
    intro q hq hq2
    obtain ⟨hs1, _⟩ := mem_preGen _ _ q hq
    obtain ⟨hs2, _⟩ := mem_preGen _ _ q hq2
    have heq := suffix_eq_of_length _ _ q hs1 hs2 (by simp)
    simp only [List.cons.injEq] at heq
    exact hbc heq.1
  · exact List.nodup_nil

theorem mem_suffixOf_nil (d : ℕ) (q : List Direction) (h : q ∈ suffixOf d []) :
    q.length ≤ d := by
  rw [suffixOf_nil_eq, descend] at h
  split_ifs at h with hlt
  · simp only [List.mem_flatMap] at h
    obtain ⟨b, _, hq⟩ := h
    obtain ⟨_, hlen⟩ := mem_preGen _ _ q hq
    simp only [List.length_cons, List.length_nil] at hlen hlt
    omega
  · simp at h

theorem get_current_path_injective (o : Pos) (d : ℕ) (q1 q2 : List Direction)
    (h : PathWalker.get_current_path ⟨o, d, false, q1⟩ =
      PathWalker.get_current_path ⟨o, d, false, q2⟩) : q1 = q2 := by
  have hs := congrArg PosPath.stack h
  rw [get_current_path_stack, get_current_path_stack] at hs
  have := posChain_injective o _ _ hs
  exact List.reverse_injective this

end Civng

open Civng in
/-- C2 is false as stated: with `max_depth = 0` the walker yields no
path at all, while the claim demands `Σ_{k=0}^{0} 6^k = 1` paths. -/
theorem c2_counterexample :
    ¬((PathWalker.new Pos.origin 0).runAll.length =
        ∑ k in Finset.range (0 + 1), 6 ^ k) := by
  have h1 : (PathWalker.new Pos.origin 0).runAll = [] := rfl
  rw [h1]
  simp

open Civng in
/-- C2 amended: with no `backoff`, repeated `PathWalker::next` calls
from an origin with maximum depth `d` yield exactly `Σ_{k=1}^{d} 6^k`
paths before returning `None` (the length-0 path is never yielded, so
the `k = 0` term of the claimed count does not occur), all pairwise
distinct, each with at most `d` steps and with every pair of
consecutive positions hex-neighbors. -/
theorem c2_amended_enumeration (o : Pos) (d : ℕ) :
    (PathWalker.new o d).runAll.length = ∑ k in Finset.Icc 1 d, 6 ^ k ∧
      (PathWalker.new o d).runAll.Nodup ∧
      ∀ pp ∈ (PathWalker.new o d).runAll,
        pp.steps ≤ d ∧ List.Chain' (fun a b => ∃ dir, b = a.neighbor dir) pp.stack := by
  have hrun : (PathWalker.new o d).runAll =
      (suffixOf d []).map (fun q => PathWalker.get_current_path ⟨o, d, false, q⟩) := by
    have := runFuel_eq (6 ^ (d + 1)) o d [] (by simp)
      (by rw [suffixOf_nil_length]; exact sum_Icc_pow_six_lt d)
    exact this
  refine ⟨?_, ?_, ?_⟩
  · rw [hrun, List.length_map, suffixOf_nil_length]
  · rw [hrun]
    exact (suffixOf_nil_nodup d).map
      (fun q1 q2 h => get_current_path_injective o d q1 q2 h)
  · intro pp hpp
    rw [hrun, List.mem_map] at hpp
    obtain ⟨q, hq, rfl⟩ := hpp
    constructor
    · have hst := get_current_path_stack o d false q
      rw [PosPath.steps, hst, posChain_length]
      simp only [List.length_reverse]
      have := mem_suffixOf_nil d q hq
      omega
    · rw [get_current_path_stack]
      exact posChain_chain o q.reverse

namespace Civng

/-- Terrain type (`terrain.rs`). -/
inductive Terrain where
  | Plain
  | Grassland
  | Desert
  | Hill
  | Mountain
  | Water
  | OutOfBounds
deriving DecidableEq, Repr

/-- `Terrain::defense_modifier`. -/
def Terrain.defense_modifier : Terrain → ℤ
  | Terrain.Hill => 25
  | _ => 0

/-- `Terrain::is_passable`. -/
def Terrain.is_passable : Terrain → Bool
  | Terrain.Mountain => false
  | Terrain.Water => false
  | Terrain.OutOfBounds => false
  | _ => true

/-- `Terrain::movement_cost`. -/
def Terrain.movement_cost : Terrain → ℕ
  | Terrain.Hill => 2
  | _ => 1

/-- Terrain grid (`TerrainMap` in `terrain.rs`): row-major rows of
`width` entries, offset position `(0, 0)` top-left. -/
structure TerrainMap where
  width : ℤ
  height : ℤ
  data : List Terrain
deriving DecidableEq, Repr

/-- `TerrainMap::get_terrain`: out-of-bounds positions report
`OutOfBounds`; in-bounds positions index the row-major data.  (The
in-bounds index is always valid when `data.len == width * height`, so
the `getD` default is never consulted for well-formed maps.) -/
def TerrainMap.get_terrain (m : TerrainMap) (pos : Pos) : Terrain :=
  let opos := pos.to_offset_pos
  if opos.x < 0 ∨ opos.y < 0 ∨ opos.x ≥ m.width ∨ opos.y ≥ m.height then
    Terrain.OutOfBounds
  else m.data.getD (opos.y * m.width + opos.x).toNat Terrain.OutOfBounds

/-- Owner tag (`Player` in `unit.rs`). -/
inductive Player where
  | Me
  | NotMe
deriving DecidableEq, Repr

/-- A unit on the map (`Unit` in `unit.rs`). -/
structure Unit where
  id : ℕ
  name : String
  pos : Pos
  movements : ℕ
  strength : ℕ
  hp : ℕ
  owner : Player
deriving DecidableEq, Repr

/-- `Unit::is_dead`. -/
def Unit.is_dead (u : Unit) : Bool := u.hp == 0

/-- The unit registry (`Units` in `unit.rs`); `add_unit` assigns ids
equal to vector indices, so `get` indexes the vector. -/
structure Units where
  units : List Unit
deriving DecidableEq, Repr

/-- `Units::get`: vector indexing by id (always in range in the source,
which panics otherwise; the default is never consulted in our uses). -/
def Units.get (us : Units) (unit_id : ℕ) : Unit :=
  us.units.getD unit_id ⟨0, "", Pos.origin, 0, 0, 0, Player.Me⟩

/-- `Units::unit_at_pos`: id of the first living unit at a position
(the `all_units` iterator skips dead units). -/
def Units.unit_at_pos (us : Units) (pos : Pos) : Option ℕ :=
  (us.units.find? (fun u => decide (¬u.is_dead = true ∧ u.pos = pos))).map Unit.id

/-- Modelled from the spec: `Units::get_at_pos`, called by
`LivePath::new` in `map.rs`, is absent from the provided `unit.rs`
snapshot.  Per the spec's unit-registry query interface
(`unit_at_pos(Position) -> optional unit id` combined with
`owner_of`/field access by id) it returns the living unit occupying a
position: the `Unit`-returning analogue of `unit_at_pos`. -/
def get_at_pos (us : Units) (pos : Pos) : Option Unit :=
  us.units.find? (fun u => decide (¬u.is_dead = true ∧ u.pos = pos))

/-- The live battlefield (`LiveMap` in `map.rs`). -/
structure LiveMap where
  terrain : TerrainMap
  units : Units
deriving DecidableEq, Repr

/-- Movement hindrances on one position (the `Hindrances` bitflags in
`map.rs`): `unit` is `HINDRANCE_UNIT`, `zoc` is `HINDRANCE_ZOC`. -/
structure Hindrances where
  unit : Bool
  zoc : Bool
deriving DecidableEq, Repr

/-- The nested `get_hindrances` function of `LivePath::new`: with no
mover the flags stay empty; otherwise a unit on the cell sets `unit`
(and `zoc` when it is an enemy of the mover), and any enemy on one of
the six neighbors sets `zoc`. -/
def get_hindrances (map : LiveMap) (pos : Pos) (mover : Option Player) : Hindrances :=
  match mover with
  | none => ⟨false, false⟩
  | some mover_owner =>
    let u0 := get_at_pos map.units pos
    let unit_flag := u0.isSome
    let zoc0 := match u0 with
      | some u => decide (u.owner ≠ mover_owner)
      | none => false
    let zoc1 := pos.around.any (fun n =>
      match get_at_pos map.units n with
      | some u => decide (u.owner ≠ mover_owner)
      | none => false)
    ⟨unit_flag, zoc0 || zoc1⟩

/-- A `PosPath` with terrain and unit information (`LivePath` in
`map.rs`). -/
structure LivePath where
  path : PosPath
  terrain : List Terrain
  hindrances : List Hindrances
  mover : Option Player
  target : Option Player
deriving DecidableEq, Repr

/-- `LivePath::new`: the mover is the owner of the unit at the path's
first cell, the target the owner of the unit at its last. -/
def LivePath.new (path : PosPath) (map : LiveMap) : LivePath :=
  let stack := path.stack
  let mover := (get_at_pos map.units (stack.headD Pos.origin)).map Unit.owner
  let target := (get_at_pos map.units (stack.getLastD Pos.origin)).map Unit.owner
  { path := path
    terrain := stack.map (fun p => map.terrain.get_terrain p)
    hindrances := stack.map (fun p => get_hindrances map p mover)
    mover := mover
    target := target }

/-- The scanning loop of `LivePath::moves_through_zoc`: `was` carries
whether the previous scanned cell was in a zone of control. -/
def zocScan : List Hindrances → Bool → Bool
  | [], _ => false
  | h :: t, was => if h.zoc then (was || zocScan t true) else zocScan t false

/-- `LivePath::moves_through_zoc`: two consecutive cells both under
enemy zone of control, the last cell being excluded from the scan
unless `including_last_index`. -/
def LivePath.moves_through_zoc (lp : LivePath) (including_last_index : Bool) : Bool :=
  zocScan (if including_last_index then lp.hindrances else lp.hindrances.dropLast) false

/-- `LivePath::is_attack`: the target exists and belongs to another
player than the mover. -/
def LivePath.is_attack (lp : LivePath) : Bool :=
  match lp.mover with
  | some mover_owner =>
    match lp.target with
    | some p => decide (p ≠ mover_owner)
    | none => false
  | none => false

/-- `LivePath::could_be_reachable`: false when there is no mover, when
any traversed cell is impassable, or when the path (destination
excluded) moves through two consecutive ZOC cells. -/
def LivePath.could_be_reachable (lp : LivePath) : Bool :=
  if lp.mover.isNone then false
  else if lp.terrain.any (fun t => !t.is_passable) then false
  else !(lp.moves_through_zoc false)

/-- `LivePath::is_reachable`: could be reachable, at least one step,
and the destination is free or holds an enemy. -/
def LivePath.is_reachable (lp : LivePath) : Bool :=
  if !lp.could_be_reachable then false
  else if lp.path.steps == 0 then false
  else !(lp.hindrances.getLastD ⟨false, false⟩).unit || lp.is_attack

/-- `LivePath::cost`: sum of the movement costs of every cell after the
origin. -/
def LivePath.cost (lp : LivePath) : ℕ :=
  (lp.terrain.drop 1).foldl (fun acc t => acc + t.movement_cost) 0

/-- `LivePath::is_exhausting`: moves through two consecutive ZOC cells,
destination included. -/
def LivePath.is_exhausting (lp : LivePath) : Bool :=
  lp.moves_through_zoc true

end Civng

namespace Civng

/-- Key lookup in the association-list model of
`HashMap<Pos, PosPath>`. -/
def alookup : List (Pos × PosPath) → Pos → Option PosPath
  | [], _ => none
  | (k, v) :: rest, key => if k = key then some v else alookup rest key

/-- The `result.entry(path.to())` logic of `LiveMap::reachable_pos`:
insert if the key is absent; if present, replace the stored path only
when the new path's cost is strictly lower. -/
def insertOrUpdate (m : LiveMap) : List (Pos × PosPath) → Pos → PosPath → List (Pos × PosPath)
  | [], key, path => [(key, path)]
  | (k, v) :: rest, key, path =>
    if k = key then
      (if (LivePath.new path m).cost < (LivePath.new v m).cost then (k, path)
       else (k, v)) :: rest
    else (k, v) :: insertOrUpdate m rest key path

/-- The `while let Some(path) = walker.next()` loop of
`LiveMap::reachable_pos`, with explicit fuel; it also returns the trace
of every path the walker yielded during the computation.  `runAll`'s
fuel bound makes the supplied fuel strictly larger than the number of
yields any walker run can produce, so the loop always ends on `None`. -/
def reachLoop (m : LiveMap) (movements : ℕ) :
    ℕ → PathWalker → List (Pos × PosPath) → List (Pos × PosPath) × List PosPath
  | 0, _, acc => (acc, [])
  | fuel + 1, w, acc =>
    match PathWalker.next w with
    | (none, _) => (acc, [])
    | (some path, w1) =>
      let lp := LivePath.new path m
      if !lp.could_be_reachable then
        let res := reachLoop m movements fuel w1.backoff acc
        (res.1, path :: res.2)
      else
        let cost := lp.cost
        let acc2 := if lp.is_reachable then insertOrUpdate m acc path.to path else acc
        let w2 := if cost ≥ movements then w1.backoff else w1
        let res := reachLoop m movements fuel w2 acc2
        (res.1, path :: res.2)

/-- `LiveMap::reachable_pos` together with the trace of enumerated
paths: walker rooted at the unit's position with `max_depth` its
remaining movement points. -/
def LiveMap.reachable_run (m : LiveMap) (unit_id : ℕ) :
    List (Pos × PosPath) × List PosPath :=
  reachLoop m (m.units.get unit_id).movements
    (6 ^ ((m.units.get unit_id).movements + 1))
    (PathWalker.new (m.units.get unit_id).pos (m.units.get unit_id).movements) []

/-- `LiveMap::reachable_pos`: destination-keyed map of the cheapest
reachable paths. -/
def LiveMap.reachable_pos (m : LiveMap) (unit_id : ℕ) : List (Pos × PosPath) :=
  (m.reachable_run unit_id).1

/-- Every path yielded by the walker during the
`LiveMap::reachable_pos` computation, in order. -/
def LiveMap.reachable_trace (m : LiveMap) (unit_id : ℕ) : List PosPath :=
  (m.reachable_run unit_id).2

end Civng

namespace Civng

theorem zocScan_of_pair (l : List Hindrances) (b : Bool) (i : ℕ)
    (hi : i + 1 < l.length)
    (h1 : (l.getD i ⟨false, false⟩).zoc = true)
    (h2 : (l.getD (i + 1) ⟨false, false⟩).zoc = true) :
    zocScan l b = true := by
  induction l generalizing i b with
  | nil => simp at hi
  | cons h t ih =>
    cases i with
    | zero =>
      simp only [List.getD_cons_zero] at h1
      rw [zocScan, h1, if_pos rfl]
      cases t with
      | nil => simp at hi
      | cons h2h t2 =>
        simp only [List.getD_cons_succ, List.getD_cons_zero] at h2
        rw [zocScan, h2]
        simp
    | succ j =>
      simp only [List.getD_cons_succ] at h1 h2
      simp only [List.length_cons] at hi
      have ht := fun b => ih b j (by omega) h1 h2
      rw [zocScan]
      split_ifs <;> simp [ht]

theorem is_reachable_imp_could (lp : LivePath) (h : lp.is_reachable = true) :
    lp.could_be_reachable = true := by
  by_contra hc
  rw [Bool.not_eq_true] at hc
  rw [LivePath.is_reachable, hc] at h
  simp at h

theorem livePath_mover (pp : PosPath) (m : LiveMap) :
    (LivePath.new pp m).mover =
      (get_at_pos m.units (pp.stack.headD Pos.origin)).map Unit.owner := rfl

theorem livePath_hindrances (pp : PosPath) (m : LiveMap) :
    (LivePath.new pp m).hindrances =
      pp.stack.map (fun p => get_hindrances m p
        ((get_at_pos m.units (pp.stack.headD Pos.origin)).map Unit.owner)) := rfl

theorem could_false_of_zoc_pair (m : LiveMap) (pp : PosPath) (w : Player) (i : ℕ)
    (hmover : (get_at_pos m.units (pp.stack.headD Pos.origin)).map Unit.owner = some w)
    (hi : i + 1 < pp.stack.length - 1)
    (hz1 : (get_hindrances m (pp.stack.getD i Pos.origin) (some w)).zoc = true)
    (hz2 : (get_hindrances m (pp.stack.getD (i + 1) Pos.origin) (some w)).zoc = true) :
    (LivePath.new pp m).could_be_reachable = false := by
  have hzoc : (LivePath.new pp m).moves_through_zoc false = true := by
    rw [LivePath.moves_through_zoc]
    simp only [Bool.false_eq_true, if_false]
    rw [livePath_hindrances, hmover]
    set f : Pos → Hindrances := fun p => get_hindrances m p (some w) with hf
    have hdl : (pp.stack.map f).dropLast = pp.stack.dropLast.map f :=
      (List.map_dropLast f pp.stack).symm
    rw [hdl]
    refine zocScan_of_pair _ false i ?_ ?_ ?_
    · simp only [List.length_map, List.length_dropLast]
      omega
    · have hb : i < (pp.stack.dropLast.map f).length := by
        simp only [List.length_map, List.length_dropLast]
        omega
      rw [List.getD_eq_getElem _ _ hb]
      have hb2 : i < pp.stack.dropLast.length := by simpa using hb
      rw [List.getElem_map, List.getElem_dropLast]
      rw [List.getD_eq_getElem _ _ (by simp at hb2 ⊢; omega)] at hz1
      exact hz1
    · have hb : i + 1 < (pp.stack.dropLast.map f).length := by
        simp only [List.length_map, List.length_dropLast]
        omega
      rw [List.getD_eq_getElem _ _ hb]
      have hb2 : i + 1 < pp.stack.dropLast.length := by simpa using hb
      rw [List.getElem_map, List.getElem_dropLast]
      rw [List.getD_eq_getElem _ _ (by simp at hb2 ⊢; omega)] at hz2
      exact hz2
  simp [LivePath.could_be_reachable, livePath_mover, hmover, hzoc]

theorem alookup_insertOrUpdate (m : LiveMap) (acc : List (Pos × PosPath))
    (key : Pos) (path : PosPath) (k : Pos) (v : PosPath)
    (h : alookup (insertOrUpdate m acc key path) k = some v) :
    v = path ∨ alookup acc k = some v := by
  induction acc with
  | nil =>
    rw [insertOrUpdate, alookup] at h
    split_ifs at h with hk
    · left
      simpa using h.symm
    · rw [alookup] at h
      simp at h
  | cons kv rest ih =>
    obtain ⟨k0, v0⟩ := kv
    rw [insertOrUpdate] at h
    by_cases hk0 : k0 = key
    · rw [if_pos hk0] at h
      by_cases hc : (LivePath.new path m).cost < (LivePath.new v0 m).cost
      · rw [if_pos hc, alookup] at h
        by_cases hk : k0 = k
        · rw [if_pos hk] at h
          simp only [Option.some.injEq] at h
          left
          exact h.symm
        · rw [if_neg hk] at h
          right
          rw [alookup, if_neg hk]
          exact h
      · rw [if_neg hc, alookup] at h
        by_cases hk : k0 = k
        · rw [if_pos hk] at h
          right
          rw [alookup, if_pos hk]
          exact h
        · rw [if_neg hk] at h
          right
          rw [alookup, if_neg hk]
          exact h
    · rw [if_neg hk0, alookup] at h
      by_cases hk : k0 = k
      · rw [if_pos hk] at h
        right
        rw [alookup, if_pos hk]
        exact h
      · rw [if_neg hk] at h
        rcases ih h with h1 | h1
        · left
          exact h1
        · right
          rw [alookup, if_neg hk]
          exact h1

theorem alookup_insertOrUpdate_other (m : LiveMap) (acc : List (Pos × PosPath))
    (key : Pos) (path : PosPath) (k : Pos) (hk : ¬k = key) :
    alookup (insertOrUpdate m acc key path) k = alookup acc k := by
  induction acc with
  | nil =>
    simp only [insertOrUpdate, alookup]
    rw [if_neg (fun he => hk he.symm)]
  | cons kv rest ih =>
    obtain ⟨k0, v0⟩ := kv
    rw [insertOrUpdate]
    by_cases hk0 : k0 = key
    · rw [if_pos hk0]
      by_cases hc : (LivePath.new path m).cost < (LivePath.new v0 m).cost
      · rw [if_pos hc, alookup, alookup,
          if_neg (by rw [hk0]; exact fun he => hk he.symm),
          if_neg (by rw [hk0]; exact fun he => hk he.symm)]
      · rw [if_neg hc]
    · rw [if_neg hk0, alookup, alookup]
      by_cases hkk : k0 = k
      · rw [if_pos hkk, if_pos hkk]
      · rw [if_neg hkk, if_neg hkk]
        exact ih

theorem alookup_insertOrUpdate_self (m : LiveMap) (acc : List (Pos × PosPath))
    (key : Pos) (path : PosPath) :
    ∃ v, alookup (insertOrUpdate m acc key path) key = some v ∧
      (LivePath.new v m).cost ≤ (LivePath.new path m).cost ∧
      ∀ v0, alookup acc key = some v0 →
        (LivePath.new v m).cost ≤ (LivePath.new v0 m).cost := by
  induction acc with
  | nil =>
    refine ⟨path, ?_, le_refl _, fun v0 h0 => by simp [alookup] at h0⟩
    rw [insertOrUpdate, alookup, if_pos rfl]
  | cons kv rest ih =>
    obtain ⟨k0, v0⟩ := kv
    rw [insertOrUpdate]
    by_cases hk0 : k0 = key
    · rw [if_pos hk0]
      by_cases hc : (LivePath.new path m).cost < (LivePath.new v0 m).cost
      · rw [if_pos hc]
        refine ⟨path, by rw [alookup, if_pos hk0], le_refl _, ?_⟩
        intro v1 h1
        rw [alookup, if_pos hk0] at h1
        simp only [Option.some.injEq] at h1
        subst h1
        exact le_of_lt hc
      · rw [if_neg hc]
        refine ⟨v0, by rw [alookup, if_pos hk0], by omega, ?_⟩
        intro v1 h1
        rw [alookup, if_pos hk0] at h1
        simp only [Option.some.injEq] at h1
        subst h1
        exact le_refl _
    · rw [if_neg hk0]
      obtain ⟨v, hv1, hv2, hv3⟩ := ih
      refine ⟨v, ?_, hv2, ?_⟩
      · rw [alookup, if_neg hk0]
        exact hv1
      · intro v1 h1
        rw [alookup, if_neg hk0] at h1
        exact hv3 v1 h1

end Civng

namespace Civng

theorem reachLoop_stored_reachable (m : LiveMap) (mov : ℕ) (fuel : ℕ)
    (w : PathWalker) (acc : List (Pos × PosPath))
    (hacc : ∀ k v, alookup acc k = some v → (LivePath.new v m).is_reachable = true) :
    ∀ k v, alookup (reachLoop m mov fuel w acc).1 k = some v →
      (LivePath.new v m).is_reachable = true := by
  induction fuel generalizing w acc with
  | zero => exact hacc
  | succ n ih =>
    intro k v h
    rw [reachLoop] at h
    cases hnx : PathWalker.next w with
    | mk opt w1 =>
      rw [hnx] at h
      cases opt with
      | none => exact hacc k v h
      | some path =>
        simp only at h
        split_ifs at h <;>
          first
            | exact ih _ _ hacc k v h
            | (refine ih _ _ ?_ k v h
               intro k2 v2 h2
               rcases alookup_insertOrUpdate m acc path.to path k2 v2 h2 with h3 | h3
               · subst h3
                 assumption
               · exact hacc k2 v2 h3)

end Civng

namespace Civng

theorem reachLoop_min (m : LiveMap) (mov : ℕ) (fuel : ℕ)
    (w : PathWalker) (acc : List (Pos × PosPath)) :
    (∀ k v0, alookup acc k = some v0 →
      ∃ v, alookup (reachLoop m mov fuel w acc).1 k = some v ∧
        (LivePath.new v m).cost ≤ (LivePath.new v0 m).cost) ∧
    (∀ q ∈ (reachLoop m mov fuel w acc).2,
      (LivePath.new q m).is_reachable = true →
      ∃ v, alookup (reachLoop m mov fuel w acc).1 q.to = some v ∧
        (LivePath.new v m).cost ≤ (LivePath.new q m).cost) := by
  induction fuel generalizing w acc with
  | zero =>
    rw [reachLoop]
    exact ⟨fun k v0 h0 => ⟨v0, h0, le_refl _⟩, fun q hq => by simp at hq⟩
  | succ n ih =>
    cases hnx : PathWalker.next w with
    | mk opt w1 =>
      cases opt with
      | none =>
        rw [reachLoop, hnx]
        exact ⟨fun k v0 h0 => ⟨v0, h0, le_refl _⟩, fun q hq => by simp at hq⟩
      | some path =>
        rw [reachLoop, hnx]
        simp only
        split_ifs <;>
          (constructor
           · intro k v0 h0
             first
               | exact (ih _ _).1 k v0 h0
               | (by_cases hk : k = path.to
                  · subst hk
                    obtain ⟨v1, hv1, hA, hv3⟩ :=
                      alookup_insertOrUpdate_self m acc path.to path
                    obtain ⟨v, hva, hvb⟩ := (ih _ _).1 _ v1 hv1
                    exact ⟨v, hva, le_trans hvb (hv3 v0 h0)⟩
                  · obtain ⟨v, hva, hvb⟩ := (ih _ _).1 k v0
                      (by rw [alookup_insertOrUpdate_other m acc path.to path k hk]
                          exact h0)
                    exact ⟨v, hva, hvb⟩)
           · intro q hq hqr
             simp only [List.mem_cons] at hq
             rcases hq with rfl | hq
             · first
                 | (obtain ⟨v1, hv1, hv2, hv3⟩ :=
                      alookup_insertOrUpdate_self m acc q.to q
                    obtain ⟨v, hva, hvb⟩ := (ih _ _).1 _ v1 hv1
                    exact ⟨v, hva, le_trans hvb hv2⟩)
                 | (exact absurd hqr (by assumption))
                 | (exact absurd (is_reachable_imp_could _ hqr) (by simp_all))
             · exact (ih _ _).2 q hq hqr)

end Civng

namespace Civng

theorem IsPrefix_getD {α : Type} (d : α) {l1 l2 : List α} (h : l1 <+: l2)
    (i : ℕ) (hi : i < l1.length) : l2.getD i d = l1.getD i d := by
  rw [List.getD_eq_getElem _ _ hi,
    List.getD_eq_getElem _ _ (lt_of_lt_of_le hi h.length_le)]
  exact (h.getElem hi).symm

/-- A 1-wide, 3-tall grass strip: the mover (owner `Me`) sits at the
top, a friendly unit on the middle cell, an enemy on the bottom cell. -/
def c3_map : LiveMap :=
  ⟨⟨1, 3, [Terrain.Grassland, Terrain.Grassland, Terrain.Grassland]⟩,
   ⟨[⟨0, "", ⟨0, 0, 0⟩, 2, 8, 100, Player.Me⟩,
     ⟨1, "", ⟨0, -1, 1⟩, 2, 8, 100, Player.Me⟩,
     ⟨2, "", ⟨0, -2, 2⟩, 2, 8, 100, Player.NotMe⟩]⟩⟩

/-- The two-step attack path straight south onto the enemy cell; its
second-to-last cell holds the friendly unit. -/
def c3_path : PosPath := ⟨[⟨0, 0, 0⟩, ⟨0, -1, 1⟩, ⟨0, -2, 2⟩]⟩

/-- A 3x3 map, all grass except a hill at offset `(1, 2)`: the mover
(3 movement points) at offset `(1, 0)`, an enemy at offset `(2, 1)`.
The enemy's zone of control covers both the origin and the cell south
of it, so the straight 2-step path onto the hill is ZOC-blocked while
the 3-step detours cost 4. -/
def c5_map : LiveMap :=
  ⟨⟨3, 3, [Terrain.Grassland, Terrain.Grassland, Terrain.Grassland,
           Terrain.Grassland, Terrain.Grassland, Terrain.Grassland,
           Terrain.Grassland, Terrain.Hill, Terrain.Grassland]⟩,
   ⟨[⟨0, "", ⟨1, -1, 0⟩, 3, 8, 100, Player.Me⟩,
     ⟨1, "", ⟨2, -2, 0⟩, 2, 8, 100, Player.NotMe⟩]⟩⟩

/-- The mover of `c5_map`. -/
def c5_mover : Civng.Unit := ⟨0, "", ⟨1, -1, 0⟩, 3, 8, 100, Player.Me⟩

/-- The cheap (cost 3) straight path onto the hill, crossing two
consecutive ZOC cells before its destination. -/
def c5_blocked : PosPath := ⟨[⟨1, -1, 0⟩, ⟨1, -2, 1⟩, ⟨1, -3, 2⟩]⟩

/-- The path `reachable_pos` actually stores for the hill destination
of `c5_map`: a 3-step detour of cost 4. -/
def c5_stored : PosPath := ⟨[⟨1, -1, 0⟩, ⟨0, -1, 1⟩, ⟨1, -2, 1⟩, ⟨1, -3, 2⟩]⟩

/-- A 1-wide, 3-tall strip (grass, grass, hill) with a single mover
(2 movement points) at the top. -/
def c6_map : LiveMap :=
  ⟨⟨1, 3, [Terrain.Grassland, Terrain.Grassland, Terrain.Hill]⟩,
   ⟨[⟨0, "", ⟨0, 0, 0⟩, 2, 8, 100, Player.Me⟩]⟩⟩

/-- The path `reachable_pos` stores for the bottom hill of `c6_map`:
two steps of total cost 3, one above the movement budget 2. -/
def c6_stored : PosPath := ⟨[⟨0, 0, 0⟩, ⟨0, -1, 1⟩, ⟨0, -2, 2⟩]⟩

/-- `c6_map` with the mover's movement points set to 0. -/
def c8_map : LiveMap :=
  ⟨⟨1, 3, [Terrain.Grassland, Terrain.Grassland, Terrain.Hill]⟩,
   ⟨[⟨0, "", ⟨0, 0, 0⟩, 0, 8, 100, Player.Me⟩]⟩⟩

end Civng

open Civng in
/-- C3: the claim's extra attack-validity condition is absent from the
code.  On `c3_map`, the two-step path onto the enemy is classified
`is_reachable` (and stored by `reachable_pos`) although its
second-to-last cell is occupied and the path is longer than one step —
the very situation the `assert!` in `LiveMap::moveunit_to` rules out,
so moving there panics. -/
theorem c3_attack_ignores_before_last :
    (LivePath.new c3_path c3_map).is_reachable = true ∧
      (LivePath.new c3_path c3_map).is_attack = true ∧
      c3_path.steps = 2 ∧
      c3_path.before_last = some (Pos.new 0 (-1) 1) ∧
      (get_at_pos c3_map.units (Pos.new 0 (-1) 1)).isSome = true ∧
      alookup (c3_map.reachable_pos 0) (Pos.new 0 (-2) 2) = some c3_path := by
  decide

open Civng in
/-- C4: whenever the cells strictly before a path's destination contain
two consecutive cells both under enemy zone of control (relative to the
mover found at the path's origin), `could_be_reachable` is false; it
stays false for every extension of that path, and consequently no such
extension is ever stored in the `reachable_pos` result. -/
theorem c4_zoc_pair_prunes (m : LiveMap) (pp : PosPath) (u : Civng.Unit) (i : ℕ)
    (hmover : get_at_pos m.units (pp.stack.headD Pos.origin) = some u)
    (hi : i + 1 < pp.stack.length - 1)
    (hz1 : (get_hindrances m (pp.stack.getD i Pos.origin) (some u.owner)).zoc = true)
    (hz2 : (get_hindrances m (pp.stack.getD (i + 1) Pos.origin) (some u.owner)).zoc = true) :
    (LivePath.new pp m).could_be_reachable = false ∧
      (∀ q : PosPath, pp.stack <+: q.stack →
        (LivePath.new q m).could_be_reachable = false) ∧
      ∀ unit_id dest sp, alookup (m.reachable_pos unit_id) dest = some sp →
        ¬pp.stack <+: sp.stack := by
  have hne : pp.stack ≠ [] := by
    intro hcon
    rw [hcon] at hi
    simp at hi
  have hmain : ∀ q : PosPath, pp.stack <+: q.stack →
      (LivePath.new q m).could_be_reachable = false := by
    intro q hpre
    have hhead : q.stack.headD Pos.origin = pp.stack.headD Pos.origin := by
      obtain ⟨t, ht⟩ := hpre
      rw [← ht]
      cases hpp : pp.stack with
      | nil => exact absurd hpp hne
      | cons a l => simp
    refine could_false_of_zoc_pair m q u.owner i ?_ ?_ ?_ ?_
    · rw [hhead, hmover]
      rfl
    · have := hpre.length_le
      omega
    · rw [IsPrefix_getD Pos.origin hpre i (by omega)]
      exact hz1
    · rw [IsPrefix_getD Pos.origin hpre (i + 1) (by omega)]
      exact hz2
  refine ⟨hmain pp List.prefix_rfl, hmain, ?_⟩
  intro unit_id dest sp hsp hpre
  rw [LiveMap.reachable_pos, LiveMap.reachable_run] at hsp
  have hreach := reachLoop_stored_reachable m _ _ _ []
    (by intro k v h; rw [alookup] at h; simp at h) dest sp hsp
  have hcould := is_reachable_imp_could _ hreach
  rw [hmain sp hpre] at hcould
  simp at hcould

open Civng in
/-- Witness for C4 on `c5_map`: the straight path `c5_blocked` crosses
the ZOC pair (origin, cell south of it) before its destination and is
not `could_be_reachable`. -/
theorem c4_zoc_pair_prunes_witness :
    get_at_pos c5_map.units (c5_blocked.stack.headD Pos.origin) = some c5_mover ∧
      0 + 1 < c5_blocked.stack.length - 1 ∧
      (get_hindrances c5_map (c5_blocked.stack.getD 0 Pos.origin)
        (some c5_mover.owner)).zoc = true ∧
      (get_hindrances c5_map (c5_blocked.stack.getD (0 + 1) Pos.origin)
        (some c5_mover.owner)).zoc = true ∧
      (LivePath.new c5_blocked c5_map).could_be_reachable = false :=
  ⟨by decide, by decide, by decide, by decide,
    (c4_zoc_pair_prunes c5_map c5_blocked c5_mover 0 (by decide) (by decide)
      (by decide) (by decide)).1⟩

open Civng in
/-- C5 is false as stated: on `c5_map` the stored path for the hill
destination costs 4, yet the enumerator also produced (and then
pruned) the straight ZOC-blocked path to the same destination with
cost 3. -/
theorem c5_counterexample :
    alookup (c5_map.reachable_pos 0) (Pos.new 1 (-3) 2) = some c5_stored ∧
      c5_blocked ∈ c5_map.reachable_trace 0 ∧
      c5_blocked.to = Pos.new 1 (-3) 2 ∧
      (LivePath.new c5_blocked c5_map).cost = 3 ∧
      (LivePath.new c5_stored c5_map).cost = 4 ∧
      ¬(LivePath.new c5_stored c5_map).cost ≤ (LivePath.new c5_blocked c5_map).cost := by
  decide

open Civng in
/-- C5 amended: for every destination in the `reachable_pos` result,
the stored path's cost is at most the cost of every path the enumerator
produced during that computation which ends at the same destination
*and is classified is-reachable* (paths that were enumerated but
rejected — e.g. ZOC-blocked ones — are never compared and can be
cheaper); an already-stored entry is replaced only when the newer
path's cost is strictly lower. -/
theorem c5_amended_min_cost (m : LiveMap) (unit_id : ℕ) (dest : Pos)
    (sp q : PosPath)
    (hstored : alookup (m.reachable_pos unit_id) dest = some sp)
    (hq : q ∈ m.reachable_trace unit_id) (hdest : q.to = dest)
    (hreach : (LivePath.new q m).is_reachable = true) :
    (LivePath.new sp m).cost ≤ (LivePath.new q m).cost := by
  rw [LiveMap.reachable_pos, LiveMap.reachable_run] at hstored
  rw [LiveMap.reachable_trace, LiveMap.reachable_run] at hq
  obtain ⟨v, hva, hvb⟩ := (reachLoop_min m (m.units.get unit_id).movements
    (6 ^ ((m.units.get unit_id).movements + 1))
    (PathWalker.new (m.units.get unit_id).pos (m.units.get unit_id).movements)
    []).2 q hq hreach
  rw [hdest, hstored] at hva
  simp only [Option.some.injEq] at hva
  rw [hva]
  exact hvb

open Civng in
/-- Witness for the amended C5 on `c5_map`: the stored hill path itself
is in the trace, is reachable, and its cost bounds itself. -/
theorem c5_amended_min_cost_witness :
    alookup (c5_map.reachable_pos 0) (Pos.new 1 (-3) 2) = some c5_stored ∧
      c5_stored ∈ c5_map.reachable_trace 0 ∧
      c5_stored.to = Pos.new 1 (-3) 2 ∧
      (LivePath.new c5_stored c5_map).is_reachable = true ∧
      (LivePath.new c5_stored c5_map).cost ≤ (LivePath.new c5_stored c5_map).cost :=
  ⟨by decide, by decide, by decide, by decide,
    c5_amended_min_cost c5_map 0 (Pos.new 1 (-3) 2) c5_stored c5_stored
      (by decide) (by decide) (by decide) (by decide)⟩

open Civng in
/-- C6: the cost-versus-budget check only prunes deeper extension after
recording, so `reachable_pos` can store an over-budget destination: on
`c6_map` the mover has budget 2, yet the hill two cells south is stored
with path cost 3 (one grass step, then a cost-2 hill step). -/
theorem c6_over_budget_destination_recorded :
    (c6_map.units.get 0).movements = 2 ∧
      alookup (c6_map.reachable_pos 0) (Pos.new 0 (-2) 2) = some c6_stored ∧
      (LivePath.new c6_stored c6_map).cost = 3 ∧
      ¬(LivePath.new c6_stored c6_map).cost ≤ (c6_map.units.get 0).movements := by
  decide

open Civng in
/-- C8: a unit with 0 remaining movement points yields an empty
reachability map, because a `PathWalker` with `max_depth = 0` returns
`None` from its very first `next()` call. -/
theorem c8_zero_budget_empty (m : LiveMap) (unit_id : ℕ)
    (h : (m.units.get unit_id).movements = 0) :
    m.reachable_pos unit_id = [] ∧
      ∀ o : Pos, (PathWalker.next (PathWalker.new o 0)).1 = none := by
  constructor
  · rw [LiveMap.reachable_pos, LiveMap.reachable_run, h]
    rfl
  · intro o
    rfl

open Civng in
/-- Witness for C8 on `c8_map`, whose only unit has 0 movement
points. -/
theorem c8_zero_budget_empty_witness :
    (c8_map.units.get 0).movements = 0 ∧ c8_map.reachable_pos 0 = [] :=
  ⟨by decide, (c8_zero_budget_empty c8_map 0 (by decide)).1⟩
